import Mathlib

/-!
# Verification of the `float_cmp` IEEE-754 comparison utility

This file is a shallow embedding of `src/float_cmp.hpp` (template class
`IEEE_754<float_type>`) and `src/type_with_size.hpp`.

A floating-point value is represented by its raw bit pattern, a natural
number below `2 ^ bitCount`, exactly as the C++ code reinterprets the
float through a same-width unsigned integer.  The template parameter
`float_type` becomes a `Format` record holding the total bit count and
the significand bit count; `binary32` corresponds to `IEEE_754<float>`
and `binary64` to `IEEE_754<double>`.

The bit-level members (`signBitMask`, `significandBitMask`,
`exponentBitMask`, `exponent_bits`, `significand_bits`, `sign_bit`,
`is_nan`, `ulp_close`, `almost_equal`) are transcribed directly.  The
only C++ operation that computes with the floating-point *value* rather
than with its bits is `float_close`, which evaluates
`absolute_value(lhs - rhs) <= maxDiff` in the floating-point type.  To
model it, finite values are mapped to exact integers in units of
`2 ^ (emin - significandBitCount)` (the smallest subnormal step:
`2 ^ -149` for binary32, `2 ^ -1074` for binary64), and the
floating-point subtraction is exact integer subtraction followed by
IEEE-754 round-to-nearest, ties-to-even (`roundI`), with overflow to
infinity; NaN and infinity follow the IEEE special-value rules.
-/

set_option maxRecDepth 8000

namespace FloatCmp

/-- The compile-time parameters of `IEEE_754<float_type>`: total number of
bits (`8 * sizeof(float_type)`) and number of significand bits
(`std::numeric_limits<float_type>::digits - 1`). -/
structure Format where
  bitCount : ℕ
  significandBitCount : ℕ
  deriving DecidableEq

/-- `IEEE_754<float>`: 32 bits, 23 significand bits. -/
def binary32 : Format := ⟨32, 23⟩

/-- `IEEE_754<double>`: 64 bits, 52 significand bits. -/
def binary64 : Format := ⟨64, 52⟩

/-- The two instantiations the library defines (`float_cmp`, `double_cmp`). -/
def Format.supported (F : Format) : Prop := F = binary32 ∨ F = binary64

namespace Format

/-- `exponentBitCount = bitCount - 1 - significandBitCount` (the 1 is the
sign bit). -/
def exponentBitCount (F : Format) : ℕ := F.bitCount - 1 - F.significandBitCount

/-- `~bit_data(0)`: all ones in the width of the representation. -/
def allOnes (F : Format) : ℕ := 2 ^ F.bitCount - 1

/-- `signBitMask = bit_data(1) << (bitCount - 1)`. -/
def signBitMask (F : Format) : ℕ := 1 <<< (F.bitCount - 1)

/-- `significandBitMask = ~bit_data(0) >> (exponentBitCount + 1)`. -/
def significandBitMask (F : Format) : ℕ := F.allOnes >>> (F.exponentBitCount + 1)

/-- `exponentBitMask = ~(signBitMask | significandBitMask)`; the C++
complement on a `bitCount`-wide unsigned type is xor with all ones. -/
def exponentBitMask (F : Format) : ℕ := F.allOnes ^^^ (F.signBitMask ||| F.significandBitMask)

/-- IEEE-754 exponent bias: `2 ^ (exponentBitCount - 1) - 1` (127 for
binary32, 1023 for binary64). -/
def bias (F : Format) : ℕ := 2 ^ (F.exponentBitCount - 1) - 1

/-- Finite values are modelled in units of `2 ^ (emin - significandBitCount)`
where `emin = 1 - bias`.  In these units the first value that overflows,
`2 ^ (emax + 1)` with `emax = bias`, is `2 ^ (2 * bias + significandBitCount)`. -/
def overflowUnits (F : Format) : ℕ := 2 ^ (2 * F.bias + F.significandBitCount)

/-- `maxDiff = std::numeric_limits<float_type>::epsilon()`, i.e. `2 ^ -significandBitCount`,
expressed in units: `2 ^ (bias - 1)`. -/
def maxDiffUnits (F : Format) : ℕ := 2 ^ (F.bias - 1)

end Format

/-- `maxUlpsDiff = 4`. -/
def maxUlpsDiff : ℕ := 4

/-- `exponent_bits() = exponentBitMask & data_.bit_`. -/
def exponent_bits (F : Format) (b : ℕ) : ℕ := F.exponentBitMask &&& b

/-- `significand_bits() = significandBitMask & data_.bit_`. -/
def significand_bits (F : Format) (b : ℕ) : ℕ := F.significandBitMask &&& b

/-- `sign_bit() = signBitMask & data_.bit_`. -/
def sign_bit (F : Format) (b : ℕ) : ℕ := F.signBitMask &&& b

/-- `is_nan() = (exponent_bits() == exponentBitMask) && (significand_bits() != 0)`. -/
def is_nan (F : Format) (b : ℕ) : Bool :=
  (exponent_bits F b == F.exponentBitMask) && (significand_bits F b != 0)

/-- Semantic value of a floating-point datum: NaN, a signed infinity, or a
finite value given as an exact integer multiple of the format's smallest
subnormal step. -/
inductive FVal where
  | nan : FVal
  | inf (negSign : Bool) : FVal
  | fin (units : ℤ) : FVal
  deriving DecidableEq

/-- Whether the sign bit of the pattern is set. -/
def sign_field (F : Format) (b : ℕ) : Bool := sign_bit F b != 0

/-- The stored exponent field, shifted down to its numeric value. -/
def exp_shifted (F : Format) (b : ℕ) : ℕ := exponent_bits F b >>> F.significandBitCount

/-- Magnitude in units of a finite pattern with stored exponent `expF` and
significand `sig`: subnormals are `sig` units, normals are
`(2 ^ significandBitCount + sig) * 2 ^ (expF - 1)` units. -/
def magOf (F : Format) (expF sig : ℕ) : ℕ :=
  if expF = 0 then sig else (2 ^ F.significandBitCount + sig) * 2 ^ (expF - 1)

/-- Magnitude in units of the finite value stored in pattern `b`. -/
def magnitudeUnits (F : Format) (b : ℕ) : ℕ :=
  magOf F (exp_shifted F b) (significand_bits F b)

/-- Decode a bit pattern to the IEEE-754 value it represents. -/
def decode (F : Format) (b : ℕ) : FVal :=
  if exponent_bits F b = F.exponentBitMask then
    (if significand_bits F b = 0 then .inf (sign_field F b) else .nan)
  else if sign_field F b then .fin (-(magnitudeUnits F b : ℤ))
  else .fin (magnitudeUnits F b)

/-- Fuelled floor of the base-2 logarithm (kernel-reducible, unlike the
well-founded library version). -/
def ilog2 : ℕ → ℕ → ℕ
  | 0, _ => 0
  | fuel + 1, n => if n < 2 then 0 else ilog2 fuel (n / 2) + 1

/-- Floor of the base-2 logarithm; the number itself is always enough fuel. -/
def log2floor (n : ℕ) : ℕ := ilog2 n n

/-- Round a magnitude of `a` units to the representable grid of its binade,
to nearest with ties to even, as if the exponent range were unbounded.  The
grid step in the binade of `a` is `2 ^ (log2floor a - significandBitCount)`
units (truncated subtraction: step 1, i.e. exact, below the normal range). -/
def roundN (F : Format) (a : ℕ) : ℕ :=
  let s := log2floor a - F.significandBitCount
  let q := a / 2 ^ s
  let r := a % 2 ^ s
  let n := if 2 * r < 2 ^ s then q else if 2 ^ s < 2 * r then q + 1 else q + q % 2
  n * 2 ^ s

/-- IEEE-754 round-to-nearest, ties-to-even, of an exact difference `d`
given in units, with overflow to infinity. -/
def roundI (F : Format) (d : ℤ) : FVal :=
  if d = 0 then .fin 0
  else if F.overflowUnits ≤ roundN F d.natAbs then .inf (d < 0)
  else if d < 0 then .fin (-(roundN F d.natAbs : ℤ))
  else .fin (roundN F d.natAbs)

/-- IEEE-754 negation of a value. -/
def fnegV : FVal → FVal
  | .nan => .nan
  | .inf s => .inf !s
  | .fin m => .fin (-m)

/-- IEEE-754 `<=` comparison (false whenever either operand is NaN). -/
def fleB : FVal → FVal → Bool
  | .nan, _ => false
  | _, .nan => false
  | .inf s, .inf t => s || !t
  | .inf s, .fin _ => s
  | .fin _, .inf t => !t
  | .fin a, .fin b => a ≤ b

/-- IEEE-754 `<` comparison (false whenever either operand is NaN). -/
def fltB : FVal → FVal → Bool
  | .nan, _ => false
  | _, .nan => false
  | .inf s, .inf t => s && !t
  | .inf s, .fin _ => s
  | .fin _, .inf t => !t
  | .fin a, .fin b => a < b

/-- IEEE-754 `>=` comparison. -/
def fgeB (x y : FVal) : Bool := fleB y x

/-- `absolute_value(v) = v >= T{} ? v : -v` evaluated in floating point
(note `-NaN` is still NaN, and `-0` compares `>= 0` so it is returned
unchanged, which is harmless for the comparisons made with it). -/
def absolute_value (v : FVal) : FVal := if fgeB v (.fin 0) then v else fnegV v

/-- IEEE-754 subtraction: special values per the standard, finite operands
subtracted exactly and rounded to nearest, ties to even.  (The sign of a
zero result is irrelevant to every comparison made with it and is
modelled as `+0`.) -/
def fsub (F : Format) : FVal → FVal → FVal
  | .nan, _ => .nan
  | _, .nan => .nan
  | .inf s, .inf t => if s = t then .nan else .inf s
  | .inf s, .fin _ => .inf s
  | .fin _, .inf t => .inf !t
  | .fin a, .fin b => roundI F (a - b)

/-- The constant `maxDiff` (the machine epsilon) as a floating-point value. -/
def maxDiff (F : Format) : FVal := .fin F.maxDiffUnits

/-- `float_close(lhs, rhs) = absolute_value(lhs - rhs) <= maxDiff`. -/
def float_close (F : Format) (lhs rhs : FVal) : Bool :=
  fleB (absolute_value (fsub F lhs rhs)) (maxDiff F)

/-- Unsigned subtraction `lhs - rhs` on `bitCount`-wide unsigned integers
(wraps modulo `2 ^ bitCount`). -/
def usub (F : Format) (lhs rhs : ℕ) : ℕ :=
  (lhs + (2 ^ F.bitCount - rhs)) % 2 ^ F.bitCount

/-- `ulp_close(lhs, rhs) = lhs - rhs <= maxUlpsDiff` (unsigned subtraction). -/
def ulp_close (F : Format) (lhs rhs : ℕ) : Bool := usub F lhs rhs ≤ maxUlpsDiff

/-- `almost_equal(rhs)`: NaN check, then `float_close` on the stored
floating-point values, then sign-bit check, then `ulp_close` on the bit
patterns, in the order of the source. -/
def almost_equal (F : Format) (selfB rhsB : ℕ) : Bool :=
  if is_nan F selfB || is_nan F rhsB then false
  else if float_close F (decode F selfB) (decode F rhsB) then true
  else if sign_bit F selfB != sign_bit F rhsB then false
  else ulp_close F selfB rhsB

/-- Negation of a stored value at the bit level: flip the sign bit.  Used to
form the operand `-x` appearing in the specification. -/
def neg_bits (F : Format) (b : ℕ) : ℕ := (b + 2 ^ (F.bitCount - 1)) % 2 ^ F.bitCount

/-! ## Basic facts about `log2floor` -/

theorem ilog2_spec : ∀ fuel n : ℕ, n ≤ fuel → 1 ≤ n →
    2 ^ ilog2 fuel n ≤ n ∧ n < 2 ^ (ilog2 fuel n + 1) := by
  intro fuel
  induction fuel with
  | zero => intro n h h1; omega
  | succ f ih =>
    intro n hle h1
    simp only [ilog2]
    by_cases h2 : n < 2
    · simp only [h2, if_true]
      constructor
      · simpa using h1
      · simpa using h2
    · simp only [h2, if_false]
      have hn2 : 1 ≤ n / 2 := by omega
      have hle2 : n / 2 ≤ f := by omega
      obtain ⟨l, u⟩ := ih (n / 2) hle2 hn2
      have e1 : 2 ^ (ilog2 f (n / 2) + 1) = 2 * 2 ^ ilog2 f (n / 2) := by
        rw [pow_succ]; ring
      have e2 : 2 ^ (ilog2 f (n / 2) + 1 + 1) = 2 * 2 ^ (ilog2 f (n / 2) + 1) := by
        rw [pow_succ 2 (ilog2 f (n / 2) + 1)]; ring
      omega

theorem log2floor_spec (n : ℕ) (h : 1 ≤ n) :
    2 ^ log2floor n ≤ n ∧ n < 2 ^ (log2floor n + 1) :=
  ilog2_spec n n le_rfl h

theorem log2floor_eq (k n : ℕ) (h1 : 2 ^ k ≤ n) (h2 : n < 2 ^ (k + 1)) :
    log2floor n = k := by
  have hn : 1 ≤ n := le_trans (Nat.one_le_two_pow) h1
  obtain ⟨l, u⟩ := log2floor_spec n hn
  rcases lt_trichotomy (log2floor n) k with h | h | h
  · exfalso
    have : 2 ^ (log2floor n + 1) ≤ 2 ^ k := Nat.pow_le_pow_right (by norm_num) (by omega)
    omega
  · exact h
  · exfalso
    have : 2 ^ (k + 1) ≤ 2 ^ log2floor n := Nat.pow_le_pow_right (by norm_num) (by omega)
    omega

theorem log2floor_lt (k n : ℕ) (h1 : 1 ≤ n) (h2 : n < 2 ^ k) : log2floor n < k := by
  obtain ⟨l, _⟩ := log2floor_spec n h1
  by_contra h
  have : 2 ^ k ≤ 2 ^ log2floor n := Nat.pow_le_pow_right (by norm_num) (by omega)
  omega

theorem le_log2floor (k n : ℕ) (h1 : 1 ≤ n) (h2 : 2 ^ k ≤ n) : k ≤ log2floor n := by
  obtain ⟨_, u⟩ := log2floor_spec n h1
  by_contra h
  have : 2 ^ (log2floor n + 1) ≤ 2 ^ k := Nat.pow_le_pow_right (by norm_num) (by omega)
  omega

/-! ## Bitwise bridging: masks of the form `(2 ^ e - 1) * 2 ^ s` -/

theorem and_mid (x e s : ℕ) :
    x &&& ((2 ^ e - 1) * 2 ^ s) = x / 2 ^ s % 2 ^ e * 2 ^ s := by
  have h1 : (2 ^ e - 1) * 2 ^ s = (2 ^ e - 1) <<< s := (Nat.shiftLeft_eq _ _).symm
  have h2 : x / 2 ^ s % 2 ^ e * 2 ^ s = ((x >>> s) % 2 ^ e) <<< s := by
    rw [Nat.shiftLeft_eq, Nat.shiftRight_eq_div_pow]
  rw [h1, h2]
  apply Nat.eq_of_testBit_eq
  intro i
  simp only [Nat.testBit_and, Nat.testBit_shiftLeft, Nat.testBit_mod_two_pow,
    Nat.testBit_shiftRight, Nat.testBit_two_pow_sub_one]
  by_cases hsi : s ≤ i
  · have hadd : s + (i - s) = i := by omega
    simp only [hsi, hadd]
    cases hx : x.testBit i <;> cases hd : decide (i - s < e) <;> simp [hx, hd]
  · simp [hsi]

/-! ## Arithmetic forms of the accessors, per format -/

theorem sign_bit32 (b : ℕ) : sign_bit binary32 b = b / 2 ^ 31 % 2 * 2 ^ 31 := by
  have h : binary32.signBitMask = (2 ^ 1 - 1) * 2 ^ 31 := by decide
  rw [sign_bit, h, Nat.land_comm, and_mid]
  norm_num

theorem sign_bit64 (b : ℕ) : sign_bit binary64 b = b / 2 ^ 63 % 2 * 2 ^ 63 := by
  have h : binary64.signBitMask = (2 ^ 1 - 1) * 2 ^ 63 := by decide
  rw [sign_bit, h, Nat.land_comm, and_mid]
  norm_num

theorem exponent_bits32 (b : ℕ) :
    exponent_bits binary32 b = b / 2 ^ 23 % 2 ^ 8 * 2 ^ 23 := by
  have h : binary32.exponentBitMask = (2 ^ 8 - 1) * 2 ^ 23 := by decide
  rw [exponent_bits, h, Nat.land_comm, and_mid]

theorem exponent_bits64 (b : ℕ) :
    exponent_bits binary64 b = b / 2 ^ 52 % 2 ^ 11 * 2 ^ 52 := by
  have h : binary64.exponentBitMask = (2 ^ 11 - 1) * 2 ^ 52 := by decide
  rw [exponent_bits, h, Nat.land_comm, and_mid]

theorem significand_bits32 (b : ℕ) : significand_bits binary32 b = b % 2 ^ 23 := by
  have h : binary32.significandBitMask = (2 ^ 23 - 1) * 2 ^ 0 := by decide
  rw [significand_bits, h, Nat.land_comm, and_mid]
  norm_num

theorem significand_bits64 (b : ℕ) : significand_bits binary64 b = b % 2 ^ 52 := by
  have h : binary64.significandBitMask = (2 ^ 52 - 1) * 2 ^ 0 := by decide
  rw [significand_bits, h, Nat.land_comm, and_mid]
  norm_num

theorem exp_shifted32 (b : ℕ) : exp_shifted binary32 b = b / 2 ^ 23 % 2 ^ 8 := by
  show exponent_bits binary32 b >>> binary32.significandBitCount = _
  rw [exponent_bits32, Nat.shiftRight_eq_div_pow]
  exact Nat.mul_div_cancel _ (by positivity)

theorem exp_shifted64 (b : ℕ) : exp_shifted binary64 b = b / 2 ^ 52 % 2 ^ 11 := by
  show exponent_bits binary64 b >>> binary64.significandBitCount = _
  rw [exponent_bits64, Nat.shiftRight_eq_div_pow]
  exact Nat.mul_div_cancel _ (by positivity)

theorem sign_field32 (b : ℕ) : sign_field binary32 b = decide (b / 2 ^ 31 % 2 = 1) := by
  have h : b / 2 ^ 31 % 2 = 0 ∨ b / 2 ^ 31 % 2 = 1 := by omega
  rcases h with h | h <;> rw [sign_field, sign_bit32, h] <;> simp

theorem sign_field64 (b : ℕ) : sign_field binary64 b = decide (b / 2 ^ 63 % 2 = 1) := by
  have h : b / 2 ^ 63 % 2 = 0 ∨ b / 2 ^ 63 % 2 = 1 := by omega
  rcases h with h | h <;> rw [sign_field, sign_bit64, h] <;> simp

/-! ## Facts about the semantic operations -/

theorem absolute_value_fin (m : ℤ) : absolute_value (.fin m) = .fin |m| := by
  by_cases h : (0 : ℤ) ≤ m
  · simp [absolute_value, fgeB, fleB, h, abs_of_nonneg h]
  · simp [absolute_value, fgeB, fleB, h, fnegV, abs_of_neg (by omega : m < 0)]

theorem absolute_value_inf (s : Bool) : absolute_value (.inf s) = .inf false := by
  cases s <;> simp [absolute_value, fgeB, fleB, fnegV]

theorem absolute_value_nan : absolute_value .nan = .nan := by
  simp [absolute_value, fgeB, fleB, fnegV]

theorem roundI_zero (F : Format) : roundI F 0 = .fin 0 := by simp [roundI]

theorem roundI_neg (F : Format) (d : ℤ) : roundI F (-d) = fnegV (roundI F d) := by
  by_cases h : d = 0
  · subst h; simp [roundI, fnegV]
  · have hn : ¬ (-d = 0) := by omega
    rcases lt_trichotomy d 0 with hd | hd | hd
    · have h1 : ¬ (-d < 0) := by omega
      simp only [roundI, if_neg h, if_neg hn, Int.natAbs_neg,
        decide_eq_false h1, decide_eq_true hd, if_neg h1, if_pos hd]
      by_cases hov : F.overflowUnits ≤ roundN F d.natAbs
      · simp [hov, fnegV]
      · simp [hov, fnegV]
    · exact absurd hd h
    · have h1 : -d < 0 := by omega
      have h2 : ¬ (d < 0) := by omega
      simp only [roundI, if_neg h, if_neg hn, Int.natAbs_neg,
        decide_eq_true h1, decide_eq_false h2, if_pos h1, if_neg h2]
      by_cases hov : F.overflowUnits ≤ roundN F d.natAbs
      · simp [hov, fnegV]
      · simp [hov, fnegV]

theorem roundN_exact (F : Format) (a : ℕ)
    (hdvd : a % 2 ^ (log2floor a - F.significandBitCount) = 0) : roundN F a = a := by
  simp only [roundN]
  rw [hdvd]
  have hpos : 0 < 2 ^ (log2floor a - F.significandBitCount) := by positivity
  rw [if_pos (by omega : 2 * 0 < 2 ^ (log2floor a - F.significandBitCount))]
  exact Nat.div_mul_cancel (Nat.dvd_iff_mod_eq_zero.mpr hdvd)

theorem roundI_coe_nat (F : Format) (a : ℕ)
    (hdvd : a % 2 ^ (log2floor a - F.significandBitCount) = 0)
    (hov : a < F.overflowUnits) : roundI F (a : ℤ) = .fin a := by
  by_cases h : a = 0
  · subst h; simp [roundI]
  · have h0 : ¬ ((a : ℤ) = 0) := by exact_mod_cast h
    have habs : (a : ℤ).natAbs = a := Int.natAbs_ofNat a
    have hr : roundN F (a : ℤ).natAbs = a := by rw [habs]; exact roundN_exact F a hdvd
    have hneg : ¬ ((a : ℤ) < 0) := by omega
    simp only [roundI, if_neg h0, hr, if_neg (by omega : ¬ F.overflowUnits ≤ a), if_neg hneg]

theorem roundN_lb (F : Format) (a k : ℕ) (h1 : 2 ^ k ≤ a)
    (h2 : F.significandBitCount ≤ k) : 2 ^ k ≤ roundN F a := by
  have ha1 : 1 ≤ a := le_trans Nat.one_le_two_pow h1
  obtain ⟨hl, hu⟩ := log2floor_spec a ha1
  have hke : k ≤ log2floor a := le_log2floor k a ha1 h1
  set e := log2floor a with he
  set s := e - F.significandBitCount with hs
  have hse : F.significandBitCount + s = e := by omega
  have hpos : 0 < 2 ^ s := by positivity
  have hq : 2 ^ F.significandBitCount ≤ a / 2 ^ s := by
    rw [Nat.le_div_iff_mul_le hpos, ← pow_add, hse]
    exact hl
  have hbase : 2 ^ k ≤ a / 2 ^ s * 2 ^ s := by
    calc 2 ^ k ≤ 2 ^ e := Nat.pow_le_pow_right (by norm_num) hke
    _ = 2 ^ F.significandBitCount * 2 ^ s := by rw [← pow_add, hse]
    _ ≤ a / 2 ^ s * 2 ^ s := Nat.mul_le_mul_right _ hq
  simp only [roundN]
  split_ifs with hb1 hb2
  · exact hbase
  · calc 2 ^ k ≤ a / 2 ^ s * 2 ^ s := hbase
    _ ≤ (a / 2 ^ s + 1) * 2 ^ s := Nat.mul_le_mul_right _ (by omega)
  · calc 2 ^ k ≤ a / 2 ^ s * 2 ^ s := hbase
    _ ≤ (a / 2 ^ s + a / 2 ^ s % 2) * 2 ^ s := Nat.mul_le_mul_right _ (by omega)

/-- If `|d| ≥ 2 ^ k` with `k` at or above the precision, the rounded
difference (even after overflow to infinity) never compares `<=` a finite
bound below `2 ^ k`. -/
theorem fleB_abs_roundI_false (F : Format) (d : ℤ) (k : ℕ) (c : ℤ)
    (hd : d ≠ 0) (hk : 2 ^ k ≤ d.natAbs) (hsb : F.significandBitCount ≤ k)
    (hc : c < 2 ^ k) : fleB (absolute_value (roundI F d)) (.fin c) = false := by
  have hlb : 2 ^ k ≤ roundN F d.natAbs := roundN_lb F d.natAbs k hk hsb
  simp only [roundI, if_neg hd]
  by_cases hov : F.overflowUnits ≤ roundN F d.natAbs
  · simp [hov, absolute_value_inf, fleB]
  · by_cases hneg : d < 0
    · simp only [hov, hneg, if_false, if_true, absolute_value_fin]
      have : |(-(roundN F d.natAbs : ℤ))| = (roundN F d.natAbs : ℤ) := by
        rw [abs_neg, abs_of_nonneg (by positivity)]
      rw [this]
      simp only [fleB, decide_eq_false_iff_not, not_le]
      calc c < 2 ^ k := hc
      _ ≤ (roundN F d.natAbs : ℤ) := by exact_mod_cast hlb
    · simp only [hov, hneg, if_false, absolute_value_fin]
      have : |((roundN F d.natAbs : ℤ))| = (roundN F d.natAbs : ℤ) :=
        abs_of_nonneg (by positivity)
      rw [this]
      simp only [fleB, decide_eq_false_iff_not, not_le]
      calc c < 2 ^ k := hc
      _ ≤ (roundN F d.natAbs : ℤ) := by exact_mod_cast hlb

/-! ## Facts about `decode` and `is_nan` -/

theorem is_nan_iff_decode (F : Format) (b : ℕ) :
    is_nan F b = true ↔ decode F b = .nan := by
  unfold is_nan decode
  by_cases h1 : exponent_bits F b = F.exponentBitMask
  · by_cases h2 : significand_bits F b = 0
    · simp [h1, h2]
    · simp [h1, h2]
  · by_cases hs : sign_field F b
    · simp [h1, hs]
    · simp [h1, hs]

theorem is_nan_false_of_fin (F : Format) (b : ℕ) (m : ℤ)
    (h : decode F b = .fin m) : is_nan F b = false := by
  have hiff := is_nan_iff_decode F b
  rw [h] at hiff
  simpa using hiff

theorem is_nan_false_of_inf (F : Format) (b : ℕ) (s : Bool)
    (h : decode F b = .inf s) : is_nan F b = false := by
  have hiff := is_nan_iff_decode F b
  rw [h] at hiff
  simpa using hiff

/-! ## Decoded magnitudes are fixed points of rounding -/

theorem magOf_roundI (F : Format) (expF sig : ℕ)
    (hsig : sig < 2 ^ F.significandBitCount)
    (hexp : expF + 2 ≤ 2 ^ F.exponentBitCount)
    (heb : 1 ≤ F.exponentBitCount) :
    roundI F (magOf F expF sig : ℤ) = .fin (magOf F expF sig) := by
  have hBpos : 1 ≤ 2 ^ (F.exponentBitCount - 1) := Nat.one_le_two_pow
  have hebpow : 2 ^ F.exponentBitCount = 2 * 2 ^ (F.exponentBitCount - 1) := by
    conv_lhs => rw [show F.exponentBitCount = F.exponentBitCount - 1 + 1 by omega]
    rw [pow_succ]; ring
  have hbias : expF ≤ 2 * F.bias := by
    have h2 : expF + 2 ≤ 2 * 2 ^ (F.exponentBitCount - 1) := by rw [← hebpow]; exact hexp
    unfold Format.bias
    omega
  by_cases hexp0 : expF = 0
  · subst hexp0
    have hmag : magOf F 0 sig = sig := by simp [magOf]
    rw [hmag]
    apply roundI_coe_nat
    · by_cases hs0 : sig = 0
      · simp [hs0]
      · have hlt : log2floor sig < F.significandBitCount :=
          log2floor_lt _ _ (by omega) hsig
        rw [show log2floor sig - F.significandBitCount = 0 by omega]
        omega
    · calc sig < 2 ^ F.significandBitCount := hsig
      _ ≤ F.overflowUnits := Nat.pow_le_pow_right (by norm_num) (by omega)
  · have hmag : magOf F expF sig = (2 ^ F.significandBitCount + sig) * 2 ^ (expF - 1) := by
      simp [magOf, hexp0]
    have hlow : 2 ^ (F.significandBitCount + (expF - 1)) ≤
        (2 ^ F.significandBitCount + sig) * 2 ^ (expF - 1) := by
      rw [pow_add]
      exact Nat.mul_le_mul_right _ (by omega)
    have hhigh : (2 ^ F.significandBitCount + sig) * 2 ^ (expF - 1) <
        2 ^ (F.significandBitCount + (expF - 1) + 1) := by
      calc (2 ^ F.significandBitCount + sig) * 2 ^ (expF - 1)
          < (2 ^ F.significandBitCount + 2 ^ F.significandBitCount) * 2 ^ (expF - 1) :=
            (Nat.mul_lt_mul_right (by positivity : 0 < 2 ^ (expF - 1))).mpr (by omega)
      _ = 2 ^ (F.significandBitCount + (expF - 1) + 1) := by
        rw [pow_add, pow_add]; ring
    have hlog : log2floor ((2 ^ F.significandBitCount + sig) * 2 ^ (expF - 1)) =
        F.significandBitCount + (expF - 1) := log2floor_eq _ _ hlow hhigh
    rw [hmag]
    apply roundI_coe_nat
    · rw [hlog,
        show F.significandBitCount + (expF - 1) - F.significandBitCount = expF - 1 by omega]
      exact Nat.mul_mod_left _ _
    · have h1 : F.significandBitCount + (expF - 1) + 1 ≤ 2 * F.bias + F.significandBitCount := by
        omega
      calc (2 ^ F.significandBitCount + sig) * 2 ^ (expF - 1)
          < 2 ^ (F.significandBitCount + (expF - 1) + 1) := hhigh
      _ ≤ 2 ^ (2 * F.bias + F.significandBitCount) := Nat.pow_le_pow_right (by norm_num) h1

theorem decode_fin_roundI_aux (F : Format) (b : ℕ) (m : ℤ)
    (heb : 1 ≤ F.exponentBitCount)
    (hsig : significand_bits F b < 2 ^ F.significandBitCount)
    (hexp2 : exponent_bits F b ≠ F.exponentBitMask →
      exp_shifted F b + 2 ≤ 2 ^ F.exponentBitCount)
    (h : decode F b = .fin m) : roundI F m = .fin m := by
  by_cases h1 : exponent_bits F b = F.exponentBitMask
  · by_cases h2 : significand_bits F b = 0
    · rw [decode, if_pos h1, if_pos h2] at h
      exact absurd h (by simp)
    · rw [decode, if_pos h1, if_neg h2] at h
      exact absurd h (by simp)
  · have hround : roundI F (magnitudeUnits F b : ℤ) = .fin (magnitudeUnits F b) := by
      unfold magnitudeUnits
      exact magOf_roundI F _ _ hsig (hexp2 h1) heb
    by_cases hs : sign_field F b = true
    · rw [decode, if_neg h1, if_pos hs] at h
      have hm : -(magnitudeUnits F b : ℤ) = m := by simpa using h
      rw [← hm, roundI_neg, hround]
      rfl
    · rw [decode, if_neg h1, if_neg hs] at h
      have hm : (magnitudeUnits F b : ℤ) = m := by simpa using h
      rw [← hm, hround]

/-- Decoded finite values are exactly representable: rounding them is the
identity (for the two instantiated formats). -/
theorem decode_fin_roundI (F : Format) (hF : F.supported) (b : ℕ) (m : ℤ)
    (h : decode F b = .fin m) : roundI F m = .fin m := by
  rcases hF with rfl | rfl
  · refine decode_fin_roundI_aux binary32 b m (by decide) ?_ ?_ h
    · rw [significand_bits32, show binary32.significandBitCount = 23 from rfl]; omega
    · intro h1
      rw [exponent_bits32, show binary32.exponentBitMask = 255 * 2 ^ 23 from by decide] at h1
      rw [exp_shifted32, show binary32.exponentBitCount = 8 from by decide]
      omega
  · refine decode_fin_roundI_aux binary64 b m (by decide) ?_ ?_ h
    · rw [significand_bits64, show binary64.significandBitCount = 52 from rfl]; omega
    · intro h1
      rw [exponent_bits64, show binary64.exponentBitMask = 2047 * 2 ^ 52 from by decide] at h1
      rw [exp_shifted64, show binary64.exponentBitCount = 11 from by decide]
      omega

/-! ## Flipping the sign bit negates the decoded value -/

theorem decode_neg32 (b : ℕ) (_hb : b < 2 ^ 32) :
    decode binary32 (neg_bits binary32 b) = fnegV (decode binary32 b) := by
  have hc : neg_bits binary32 b = (b + 2 ^ 31) % 2 ^ 32 := rfl
  rw [hc]
  have h1 : (b + 2 ^ 31) % 2 ^ 32 % 2 ^ 23 = b % 2 ^ 23 := by omega
  have h2 : (b + 2 ^ 31) % 2 ^ 32 / 2 ^ 23 % 2 ^ 8 = b / 2 ^ 23 % 2 ^ 8 := by omega
  have h3 : (b + 2 ^ 31) % 2 ^ 32 / 2 ^ 31 % 2 = 1 - b / 2 ^ 31 % 2 := by omega
  have e1 : exponent_bits binary32 ((b + 2 ^ 31) % 2 ^ 32) = exponent_bits binary32 b := by
    rw [exponent_bits32, exponent_bits32, h2]
  have e2 : significand_bits binary32 ((b + 2 ^ 31) % 2 ^ 32) = significand_bits binary32 b := by
    rw [significand_bits32, significand_bits32, h1]
  have e3 : exp_shifted binary32 ((b + 2 ^ 31) % 2 ^ 32) = exp_shifted binary32 b := by
    rw [exp_shifted32, exp_shifted32, h2]
  have e4 : sign_field binary32 ((b + 2 ^ 31) % 2 ^ 32) = !(sign_field binary32 b) := by
    rw [sign_field32, sign_field32, h3]
    have hd : b / 2 ^ 31 % 2 = 0 ∨ b / 2 ^ 31 % 2 = 1 := by omega
    rcases hd with hd | hd <;> rw [hd] <;> simp
  have e5 : magnitudeUnits binary32 ((b + 2 ^ 31) % 2 ^ 32) = magnitudeUnits binary32 b := by
    rw [magnitudeUnits, magnitudeUnits, e3, e2]
  rw [decode, decode, e1, e2, e4, e5]
  by_cases hexp : exponent_bits binary32 b = binary32.exponentBitMask
  · by_cases hsig0 : significand_bits binary32 b = 0
    · simp [hexp, hsig0, fnegV]
    · simp [hexp, hsig0, fnegV]
  · by_cases hsf : sign_field binary32 b = true
    · simp [hexp, hsf, fnegV]
    · simp [hexp, hsf, fnegV]

theorem decode_neg64 (b : ℕ) (_hb : b < 2 ^ 64) :
    decode binary64 (neg_bits binary64 b) = fnegV (decode binary64 b) := by
  have hc : neg_bits binary64 b = (b + 2 ^ 63) % 2 ^ 64 := rfl
  rw [hc]
  have h1 : (b + 2 ^ 63) % 2 ^ 64 % 2 ^ 52 = b % 2 ^ 52 := by omega
  have h2 : (b + 2 ^ 63) % 2 ^ 64 / 2 ^ 52 % 2 ^ 11 = b / 2 ^ 52 % 2 ^ 11 := by omega
  have h3 : (b + 2 ^ 63) % 2 ^ 64 / 2 ^ 63 % 2 = 1 - b / 2 ^ 63 % 2 := by omega
  have e1 : exponent_bits binary64 ((b + 2 ^ 63) % 2 ^ 64) = exponent_bits binary64 b := by
    rw [exponent_bits64, exponent_bits64, h2]
  have e2 : significand_bits binary64 ((b + 2 ^ 63) % 2 ^ 64) = significand_bits binary64 b := by
    rw [significand_bits64, significand_bits64, h1]
  have e3 : exp_shifted binary64 ((b + 2 ^ 63) % 2 ^ 64) = exp_shifted binary64 b := by
    rw [exp_shifted64, exp_shifted64, h2]
  have e4 : sign_field binary64 ((b + 2 ^ 63) % 2 ^ 64) = !(sign_field binary64 b) := by
    rw [sign_field64, sign_field64, h3]
    have hd : b / 2 ^ 63 % 2 = 0 ∨ b / 2 ^ 63 % 2 = 1 := by omega
    rcases hd with hd | hd <;> rw [hd] <;> simp
  have e5 : magnitudeUnits binary64 ((b + 2 ^ 63) % 2 ^ 64) = magnitudeUnits binary64 b := by
    rw [magnitudeUnits, magnitudeUnits, e3, e2]
  rw [decode, decode, e1, e2, e4, e5]
  by_cases hexp : exponent_bits binary64 b = binary64.exponentBitMask
  · by_cases hsig0 : significand_bits binary64 b = 0
    · simp [hexp, hsig0, fnegV]
    · simp [hexp, hsig0, fnegV]
  · by_cases hsf : sign_field binary64 b = true
    · simp [hexp, hsf, fnegV]
    · simp [hexp, hsf, fnegV]

theorem decode_neg (F : Format) (hF : F.supported) (b : ℕ) (hb : b < 2 ^ F.bitCount) :
    decode F (neg_bits F b) = fnegV (decode F b) := by
  rcases hF with rfl | rfl
  · exact decode_neg32 b hb
  · exact decode_neg64 b hb

theorem sign_bit_neg_ne (F : Format) (hF : F.supported) (b : ℕ) (hb : b < 2 ^ F.bitCount) :
    sign_bit F (neg_bits F b) ≠ sign_bit F b := by
  rcases hF with rfl | rfl
  · show sign_bit binary32 ((b + 2 ^ 31) % 2 ^ 32) ≠ sign_bit binary32 b
    rw [sign_bit32, sign_bit32]
    omega
  · show sign_bit binary64 ((b + 2 ^ 63) % 2 ^ 64) ≠ sign_bit binary64 b
    rw [sign_bit64, sign_bit64]
    omega

/-! ## Unfolding `almost_equal` branch by branch -/

theorem almost_equal_nan_left (F : Format) (x y : ℕ) (h : is_nan F x = true) :
    almost_equal F x y = false := by
  simp [almost_equal, h]

theorem almost_equal_nan_right (F : Format) (x y : ℕ) (h : is_nan F y = true) :
    almost_equal F x y = false := by
  simp [almost_equal, h]

theorem almost_equal_of_float_close (F : Format) (x y : ℕ)
    (h1 : is_nan F x = false) (h2 : is_nan F y = false)
    (h3 : float_close F (decode F x) (decode F y) = true) :
    almost_equal F x y = true := by
  simp [almost_equal, h1, h2, h3]

theorem almost_equal_of_sign_mismatch (F : Format) (x y : ℕ)
    (h1 : is_nan F x = false) (h2 : is_nan F y = false)
    (h3 : float_close F (decode F x) (decode F y) = false)
    (h4 : sign_bit F x ≠ sign_bit F y) :
    almost_equal F x y = false := by
  simp [almost_equal, h1, h2, h3, h4]

theorem almost_equal_of_ulp (F : Format) (x y : ℕ)
    (h1 : is_nan F x = false) (h2 : is_nan F y = false)
    (h3 : float_close F (decode F x) (decode F y) = false)
    (h4 : sign_bit F x = sign_bit F y) :
    almost_equal F x y = ulp_close F x y := by
  simp [almost_equal, h1, h2, h3, h4]

theorem two_pow_pred (k : ℕ) (hk : 1 ≤ k) : 2 ^ k = 2 * 2 ^ (k - 1) := by
  conv_lhs => rw [show k = k - 1 + 1 by omega]
  rw [pow_succ]; ring

theorem supported_bias_facts (F : Format) (hF : F.supported) :
    1 ≤ F.bias ∧ F.significandBitCount ≤ F.bias := by
  rcases hF with rfl | rfl <;> exact ⟨by decide, by decide⟩

/-! ## The claims -/

/-- C1: the specification demands that same-sign patterns at bit distance
exactly 4 compare equal, in particular
`almost_equal(1.0f, nextafter(1.0f, +inf) applied 4 times) == true`
(patterns `0x3F800000` and `0x3F800004`), and that distance 5 at magnitudes
beyond the absolute check compares unequal.  The code fails the distance-4
requirement in the stated operand order: `ulp_close` subtracts the bit
patterns in a fixed order, so `0x3F800000 - 0x3F800004` wraps to
`2^32 - 4 > 4` and `almost_equal` returns `false`; with the operands
swapped it returns `true`.  (The distance-5 half of the claim does hold:
both orders return `false`.) -/
theorem c1_ulp_boundary_code_result :
    almost_equal binary32 0x3F800000 0x3F800004 = false ∧
    almost_equal binary32 0x3F800004 0x3F800000 = true ∧
    almost_equal binary32 0x3F800000 0x3F800005 = false ∧
    almost_equal binary32 0x3F800005 0x3F800000 = false := by
  refine ⟨by decide, by decide, by decide, by decide⟩

/-- C2: symmetry of `almost_equal` fails on the code: for `x = 1.0f`
(`0x3F800000`) and `y` four ULPs above it (`0x3F800004`), both finite,
`almost_equal(x, y) = false` while `almost_equal(y, x) = true`, because
`ulp_close` subtracts bit patterns in a fixed order and wraps. -/
theorem c2_symmetry_code_result :
    almost_equal binary32 0x3F800000 0x3F800004 ≠
      almost_equal binary32 0x3F800004 0x3F800000 := by
  decide

/-- C3: a NaN operand (all-ones exponent, nonzero significand, either sign)
makes `almost_equal` false in both operand orders, for any other operand,
including the NaN itself. -/
theorem c3_nan_never_equal (F : Format) (x y : ℕ) (h : is_nan F x = true) :
    almost_equal F x y = false ∧ almost_equal F y x = false :=
  ⟨almost_equal_nan_left F x y h, almost_equal_nan_right F y x h⟩

/-- Witness for C3 at a concrete quiet NaN, against `1.0f` and itself. -/
theorem c3_nan_never_equal_witness :
    is_nan binary32 0x7FC00000 = true ∧
    almost_equal binary32 0x7FC00000 0x3F800000 = false ∧
    almost_equal binary32 0x3F800000 0x7FC00000 = false ∧
    almost_equal binary32 0x7FC00000 0x7FC00000 = false :=
  ⟨by decide, (c3_nan_never_equal binary32 0x7FC00000 0x3F800000 (by decide)).1,
    (c3_nan_never_equal binary32 0x7FC00000 0x3F800000 (by decide)).2,
    (c3_nan_never_equal binary32 0x7FC00000 0x7FC00000 (by decide)).1⟩

/-- C4: `almost_equal(x, x) = true` for every finite value `x`: the stored
values subtract to exactly zero, so `float_close` fires. -/
theorem c4_reflexive_on_finite (F : Format) (b : ℕ) (m : ℤ)
    (h : decode F b = .fin m) : almost_equal F b b = true := by
  have h1 := is_nan_false_of_fin F b m h
  apply almost_equal_of_float_close F b b h1 h1
  rw [h]
  have hsub : fsub F (.fin m) (.fin m) = .fin 0 := by
    simp [fsub, sub_self, roundI_zero]
  rw [float_close, hsub, absolute_value_fin]
  simp [fleB, maxDiff, abs_zero]

/-- Witness for C4 at `x = 1.0f`. -/
theorem c4_reflexive_on_finite_witness :
    decode binary32 0x3F800000 = .fin ((2 : ℤ) ^ 149) ∧
    almost_equal binary32 0x3F800000 0x3F800000 = true :=
  ⟨by decide, c4_reflexive_on_finite binary32 0x3F800000 ((2 : ℤ) ^ 149) (by decide)⟩

/-- C5 counterexample: `float_close` does *not* return true exactly when
`|a - b| <= epsilon`.  For `a = 2^-23 + 2^-46` (`0x34000001`) and
`b = 2^-47` (`0x28000000`), the exact difference `2^-23 + 2^-47` exceeds
epsilon (`2^-23`), yet the floating-point subtraction rounds it (tie to
even) down to epsilon and `float_close` returns true.  In units of
`2^-149`: the exact difference is `2^126 + 2^102 > 2^126 = epsilon`. -/
theorem c5_float_close_not_exact :
    decode binary32 0x34000001 = .fin ((2 : ℤ) ^ 126 + 2 ^ 103) ∧
    decode binary32 0x28000000 = .fin ((2 : ℤ) ^ 102) ∧
    float_close binary32 (decode binary32 0x34000001) (decode binary32 0x28000000) = true ∧
    ¬ (((2 : ℤ) ^ 126 + 2 ^ 103) - 2 ^ 102 ≤ (Format.maxDiffUnits binary32 : ℤ)) :=
  ⟨by decide, by decide, by decide, by decide⟩

/-- C5 (amended): for every value `x` with `|x| <= epsilon`,
`almost_equal(x, 0.0) = true`; this follows from `float_close(a, b)`
returning true *whenever* `|a - b| <= epsilon` (but not only then, see the
counterexample). -/
theorem c5_small_values_equal_zero (F : Format) (hF : F.supported) (b : ℕ) (m : ℤ)
    (h : decode F b = .fin m) (hm : |m| ≤ (F.maxDiffUnits : ℤ)) :
    almost_equal F b 0 = true := by
  have h1 := is_nan_false_of_fin F b m h
  have h0 : decode F 0 = .fin 0 := by rcases hF with rfl | rfl <;> decide
  have h2 : is_nan F 0 = false := is_nan_false_of_fin F 0 0 h0
  apply almost_equal_of_float_close F b 0 h1 h2
  rw [h, h0]
  have hsub : fsub F (.fin m) (.fin 0) = roundI F m := by
    simp [fsub, sub_zero]
  rw [float_close, hsub, decode_fin_roundI F hF b m h, absolute_value_fin]
  simp only [maxDiff, fleB, decide_eq_true_eq]
  exact hm

/-- Witness for C5 (amended) at `x = epsilon` itself (`0x34000000`). -/
theorem c5_small_values_equal_zero_witness :
    decode binary32 0x34000000 = .fin ((2 : ℤ) ^ 126) ∧
    |(2 : ℤ) ^ 126| ≤ (Format.maxDiffUnits binary32 : ℤ) ∧
    almost_equal binary32 0x34000000 0 = true :=
  ⟨by decide, by decide,
    c5_small_values_equal_zero binary32 (Or.inl rfl) 0x34000000 ((2 : ℤ) ^ 126)
      (by decide) (by decide)⟩

/-- C6: in both supported widths the three masks or together to all ones
and are pairwise disjoint: every bit belongs to exactly one field. -/
theorem c6_masks_partition :
    (binary32.signBitMask ||| binary32.exponentBitMask ||| binary32.significandBitMask =
        binary32.allOnes ∧
      binary32.signBitMask &&& binary32.exponentBitMask = 0 ∧
      binary32.signBitMask &&& binary32.significandBitMask = 0 ∧
      binary32.exponentBitMask &&& binary32.significandBitMask = 0) ∧
    (binary64.signBitMask ||| binary64.exponentBitMask ||| binary64.significandBitMask =
        binary64.allOnes ∧
      binary64.signBitMask &&& binary64.exponentBitMask = 0 ∧
      binary64.signBitMask &&& binary64.significandBitMask = 0 ∧
      binary64.exponentBitMask &&& binary64.significandBitMask = 0) := by
  refine ⟨⟨by decide, by decide, by decide, by decide⟩,
    ⟨by decide, by decide, by decide, by decide⟩⟩

/-- C7: for every value `x` whose magnitude exceeds epsilon in the
floating-point order (this excludes NaN, zero and every `|x| <= epsilon`),
`almost_equal(x, -x) = false`: the subtraction `x - (-x)` is at least
`2^(bias)` units in magnitude, far above epsilon, so `float_close` fails,
and then the sign bits differ. -/
theorem c7_opposite_signs_not_equal (F : Format) (hF : F.supported) (b : ℕ)
    (hb : b < 2 ^ F.bitCount)
    (h : fltB (maxDiff F) (absolute_value (decode F b)) = true) :
    almost_equal F b (neg_bits F b) = false := by
  obtain ⟨hbias1, hsble⟩ := supported_bias_facts F hF
  cases hv : decode F b with
  | nan =>
      rw [hv, absolute_value_nan] at h
      exact absurd h (by simp [fltB, maxDiff])
  | inf s =>
      have h1 : is_nan F b = false := is_nan_false_of_inf F b s hv
      have hnegd : decode F (neg_bits F b) = .inf (!s) := by
        rw [decode_neg F hF b hb, hv]; rfl
      have h2 : is_nan F (neg_bits F b) = false := is_nan_false_of_inf F _ _ hnegd
      have h3 : float_close F (decode F b) (decode F (neg_bits F b)) = false := by
        rw [hv, hnegd, float_close]
        have hs : fsub F (.inf s) (.inf !s) = .inf s := by
          cases s <;> simp [fsub]
        rw [hs, absolute_value_inf]
        simp [fleB, maxDiff]
      exact almost_equal_of_sign_mismatch F b _ h1 h2 h3
        (Ne.symm (sign_bit_neg_ne F hF b hb))
  | fin m =>
      rw [hv, absolute_value_fin] at h
      simp only [fltB, maxDiff, decide_eq_true_eq] at h
      have h1 : is_nan F b = false := is_nan_false_of_fin F b m hv
      have hnegd : decode F (neg_bits F b) = .fin (-m) := by
        rw [decode_neg F hF b hb, hv]; rfl
      have h2 : is_nan F (neg_bits F b) = false := is_nan_false_of_fin F _ _ hnegd
      have hmabs : Format.maxDiffUnits F < m.natAbs := by
        rw [Int.abs_eq_natAbs] at h
        exact_mod_cast h
      have h3 : float_close F (decode F b) (decode F (neg_bits F b)) = false := by
        rw [hv, hnegd, float_close]
        have hs : fsub F (.fin m) (.fin (-m)) = roundI F (2 * m) := by
          simp [fsub, sub_neg_eq_add, two_mul]
        rw [hs]
        show fleB (absolute_value (roundI F (2 * m))) (.fin (F.maxDiffUnits : ℤ)) = false
        apply fleB_abs_roundI_false F (2 * m) F.bias
        · have hm0 : m ≠ 0 := by
            intro hm0
            rw [hm0] at hmabs
            simp at hmabs
          intro h2m
          apply hm0
          omega
        · rw [Int.natAbs_mul]
          have hna2 : (2 : ℤ).natAbs = 2 := rfl
          rw [hna2]
          have hsplit := two_pow_pred F.bias hbias1
          have hmabs2 : 2 ^ (F.bias - 1) < m.natAbs := hmabs
          omega
        · exact hsble
        · have hsplit := two_pow_pred F.bias hbias1
          have hlt : Format.maxDiffUnits F < 2 ^ F.bias := by
            have hunits : Format.maxDiffUnits F = 2 ^ (F.bias - 1) := rfl
            have hppos : 1 ≤ 2 ^ (F.bias - 1) := Nat.one_le_two_pow
            omega
          calc (Format.maxDiffUnits F : ℤ) < ((2 ^ F.bias : ℕ) : ℤ) := by exact_mod_cast hlt
          _ = (2 : ℤ) ^ F.bias := by push_cast; rfl
      exact almost_equal_of_sign_mismatch F b _ h1 h2 h3
        (Ne.symm (sign_bit_neg_ne F hF b hb))

/-- Witness for C7 at `x = 1.0f`: `-x` is the sign-flipped pattern
`0xBF800000`. -/
theorem c7_opposite_signs_not_equal_witness :
    fltB (maxDiff binary32) (absolute_value (decode binary32 0x3F800000)) = true ∧
    almost_equal binary32 0x3F800000 (neg_bits binary32 0x3F800000) = false :=
  ⟨by decide,
    c7_opposite_signs_not_equal binary32 (Or.inl rfl) 0x3F800000 (by decide) (by decide)⟩

/-- C8: two like-signed infinities of either supported width compare
`almost_equal`: `inf - inf` is NaN so `float_close` fails, but the sign
bits agree and the bit patterns are identical, so `ulp_close` fires with
distance 0. -/
theorem c8_inf_equal :
    almost_equal binary32 0x7F800000 0x7F800000 = true ∧
    almost_equal binary32 0xFF800000 0xFF800000 = true ∧
    almost_equal binary64 0x7FF0000000000000 0x7FF0000000000000 = true ∧
    almost_equal binary64 0xFFF0000000000000 0xFFF0000000000000 = true := by
  refine ⟨by decide, by decide, by decide, by decide⟩

/-- C9: with the infinity as left operand, `almost_equal(+inf, maxfinite)`
and `almost_equal(-inf, -maxfinite)` are true in both widths: the bit
patterns are adjacent (distance 1 <= 4). -/
theorem c9_inf_vs_max_finite :
    almost_equal binary32 0x7F800000 0x7F7FFFFF = true ∧
    almost_equal binary32 0xFF800000 0xFF7FFFFF = true ∧
    almost_equal binary64 0x7FF0000000000000 0x7FEFFFFFFFFFFFFF = true ∧
    almost_equal binary64 0xFFF0000000000000 0xFFEFFFFFFFFFFFFF = true := by
  refine ⟨by decide, by decide, by decide, by decide⟩

/-- C10: for non-NaN patterns with equal sign bits that are not
`float_close` and with `a`'s pattern strictly below `b`'s, the unsigned
subtraction in `ulp_close` wraps to a value strictly greater than 4, so
`almost_equal(a, b) = false` in that operand order. -/
theorem c10_wrap_order (F : Format) (hF : F.supported) (a b : ℕ)
    (ha : a < 2 ^ F.bitCount) (hb : b < 2 ^ F.bitCount)
    (h1 : is_nan F a = false) (h2 : is_nan F b = false)
    (hs : sign_bit F a = sign_bit F b)
    (hfc : float_close F (decode F a) (decode F b) = false)
    (hab : a < b) :
    almost_equal F a b = false ∧ maxUlpsDiff < usub F a b := by
  have hmain : maxUlpsDiff < usub F a b := by
    rcases hF with rfl | rfl
    · have ha2 : a < 2 ^ 32 := ha
      have hb2 : b < 2 ^ 32 := hb
      have hs2 := hs
      rw [sign_bit32, sign_bit32] at hs2
      show 4 < (a + (2 ^ 32 - b)) % 2 ^ 32
      omega
    · have ha2 : a < 2 ^ 64 := ha
      have hb2 : b < 2 ^ 64 := hb
      have hs2 := hs
      rw [sign_bit64, sign_bit64] at hs2
      show 4 < (a + (2 ^ 64 - b)) % 2 ^ 64
      omega
  refine ⟨?_, hmain⟩
  rw [almost_equal_of_ulp F a b h1 h2 hfc hs]
  show decide (usub F a b ≤ maxUlpsDiff) = false
  apply decide_eq_false
  omega

/-- Witness for C10 at `a = 1.0f`, `b` four ULPs above: the wrapped
difference is `2^32 - 4`. -/
theorem c10_wrap_order_witness :
    almost_equal binary32 0x3F800000 0x3F800004 = false ∧
    maxUlpsDiff < usub binary32 0x3F800000 0x3F800004 :=
  c10_wrap_order binary32 (Or.inl rfl) 0x3F800000 0x3F800004 (by decide) (by decide)
    (by decide) (by decide) (by decide) (by decide) (by decide)

end FloatCmp
